import Mathlib

/-!
# Verification of the `env-to-toml` conversion engine

Shallow embedding of `src/lib.rs`: the collector `Config::from_env`, the
serializer `Config::to_toml` and the entry point `env_to_toml`.

Strings are modelled as lists of characters (`Str`).  The process
environment is modelled as an explicit association list of name/value
pairs, matching the spec's injected read-only mapping view of
`std::env::vars()`.  The Rust `HashMap` holding the sections is modelled
as an association list in first-insertion order; since `HashMap`
iteration order is unspecified, serialization is additionally described
by the relation `ConvertOutputs`, which allows an arbitrary permutation
of the stored section entries.
-/

set_option autoImplicit false

namespace EnvToToml

/-- Strings are modelled as lists of characters. -/
abbrev Str := List Char

/-- The literal double-underscore delimiter `"__"` of the derivation rule. -/
def dunder : Str := ['_', '_']

/-- Models Rust `str::strip_prefix`: `some` of the remainder when the first
argument is an exact, case-sensitive leading substring of the second,
`none` otherwise. -/
def stripPrefixOpt : Str → Str → Option Str
  | [], s => some s
  | _ :: _, [] => none
  | p :: ps, c :: cs => if p = c then stripPrefixOpt ps cs else none

/-- Models Rust `str::to_lowercase`, restricted to characters whose
lowercasing is a single character (ASCII letters in particular); the
claims do not depend on multi-character Unicode lowercase expansions. -/
def toLowercase (s : Str) : Str := s.map Char.toLower

/-- Models Rust `str::split` with the literal pattern `"__"`: greedy
leftmost non-overlapping matches; the empty string yields `[[]]`. -/
def splitDunder : Str → List Str
  | [] => [[]]
  | [c] => [[c]]
  | c :: d :: rest =>
    if c = '_' ∧ d = '_' then
      [] :: splitDunder rest
    else
      match splitDunder (d :: rest) with
      | [] => [[c]]
      | t :: ts => (c :: t) :: ts

/-- Models Rust slice `join`: concatenation with a separator between
consecutive elements. -/
def joinWith (sep : Str) : List Str → Str
  | [] => []
  | [x] => x
  | x :: y :: xs => x ++ sep ++ joinWith sep (y :: xs)

/-- One configuration item (`struct ConfigItem` of the source); the
source's `section` field is called `sectionName` because `section` is a
Lean keyword. -/
structure ConfigItem where
  sectionName : Option Str
  key : Str
  value : Str
deriving DecidableEq

/-- The conversion result (`struct Config` of the source).  The source's
`sections: HashMap<String, Vec<ConfigItem>>` is modelled as an
association list in first-insertion order. -/
structure Config where
  global : List ConfigItem
  sections : List (Str × List ConfigItem)
deriving DecidableEq

/-- The per-variable body of `Config::from_env`: strip the prefix,
lowercase, split on `"__"`, `split_at(len - 1)` into section parts and
key part, join the section parts with `"."`, and build the `ConfigItem`
(`section` is `None` exactly when the joined section string is empty).
Returns `none` when the variable name does not start with the prefix. -/
def deriveItem (pre name value : Str) : Option ConfigItem :=
  match stripPrefixOpt pre name with
  | none => none
  | some strippedKey =>
    let normalizedKey := toLowercase strippedKey
    let parts := splitDunder normalizedKey
    let sectionParts := parts.take (parts.length - 1)
    let keyParts := parts.drop (parts.length - 1)
    let sec := joinWith ['.'] sectionParts
    some { sectionName := if sec = [] then none else some sec
         , key := joinWith [] keyParts
         , value := value }

/-- Models `config.sections.entry(s).or_default().push(item)`: append to
the existing bucket for `s`, or create a fresh bucket. -/
def insertSection : List (Str × List ConfigItem) → Str → ConfigItem → List (Str × List ConfigItem)
  | [], s, item => [(s, [item])]
  | (k, items) :: rest, s, item =>
    if k = s then (k, items ++ [item]) :: rest
    else (k, items) :: insertSection rest s item

/-- One iteration of the `for (key, value) in env::vars()` loop of
`Config::from_env`. -/
def fromEnvStep (pre : Str) (config : Config) (nv : Str × Str) : Config :=
  match deriveItem pre nv.1 nv.2 with
  | none => config
  | some item =>
    match item.sectionName with
    | some s => { config with sections := insertSection config.sections s item }
    | none => { config with global := config.global ++ [item] }

/-- `Config::from_env`, with the environment snapshot passed explicitly
as an association list of name/value pairs. -/
def fromEnv (pre : Str) (env : List (Str × Str)) : Config :=
  env.foldl (fromEnvStep pre) { global := [], sections := [] }

/-- `Config::to_toml` with the section entries supplied in an explicit
iteration order, mirroring the `push_str` accumulation of the source:
global items first, then for each section entry a blank line, the
`[section]` header and the section's items. -/
def tomlIter (globalItems : List ConfigItem) (secs : List (Str × List ConfigItem)) : Str :=
  let res := globalItems.foldl
    (fun res item => res ++ (item.key ++ " = \"".data ++ item.value ++ "\"\n".data)) []
  secs.foldl
    (fun res entry =>
      entry.2.foldl
        (fun res item => res ++ (item.key ++ " = \"".data ++ item.value ++ "\"\n".data))
        (res ++ ("\n[".data ++ entry.1 ++ "]\n".data)))
    res

/-- `Config::to_toml`, iterating the section entries in stored
(first-insertion) order — one admissible `HashMap` iteration order. -/
def to_toml (config : Config) : Str := tomlIter config.global config.sections

/-- `env_to_toml`: collector then serializer, wrapped in `Ok`. -/
def env_to_toml (pre : Str) (env : List (Str × Str)) : Except Str Str :=
  Except.ok (to_toml (fromEnv pre env))

/-- All strings the pipeline may produce for a given prefix and
environment snapshot: the Rust `HashMap` iterates its entries in an
unspecified order, modelled as an arbitrary permutation of the stored
section entries. -/
def ConvertOutputs (pre : Str) (env : List (Str × Str)) (out : Str) : Prop :=
  ∃ secs, secs.Perm (fromEnv pre env).sections ∧
    out = tomlIter (fromEnv pre env).global secs

/-- The rendered `key = "value"` line of a single item. -/
def renderItem (item : ConfigItem) : Str :=
  item.key ++ " = \"".data ++ item.value ++ "\"\n".data

/-- The rendered block of a single section entry: blank line, header,
then the section's items. -/
def renderSection (entry : Str × List ConfigItem) : Str :=
  "\n[".data ++ entry.1 ++ "]\n".data ++ (entry.2.map renderItem).flatten

/-- Membership of an item anywhere in a `Config`. -/
def ItemIn (c : Config) (item : ConfigItem) : Prop :=
  item ∈ c.global ∨ ∃ s items, (s, items) ∈ c.sections ∧ item ∈ items

/-- Bucket-correct membership: the item is in `global` when it has no
section, and in its own section's list otherwise. -/
def InBucket (c : Config) (item : ConfigItem) : Prop :=
  match item.sectionName with
  | none => item ∈ c.global
  | some s => ∃ items, (s, items) ∈ c.sections ∧ item ∈ items

/-- The §3 data-model invariant: global items carry no section name, and
every stored section entry has a non-empty name and owns exactly the
items labelled with it. -/
def ConfigWF (c : Config) : Prop :=
  (∀ i ∈ c.global, i.sectionName = none) ∧
  (∀ s items, (s, items) ∈ c.sections → s ≠ [] ∧ ∀ i ∈ items, i.sectionName = some s)

/-- The section assignment exactly as the spec's derivation rule words
it (§3 steps 4–6): with zero preceding components the section is `none`,
otherwise it is the preceding components joined with `"."`. -/
def specSectionOfParts (parts : List Str) : Option Str :=
  if parts.length ≤ 1 then none else some (joinWith ['.'] parts.dropLast)

/-- Literal "APP_" used in concrete claim instances. -/
def sAPP : Str := "APP_".data

/-- Literal "APP_PORT" used in concrete claim instances. -/
def sAPPPORT : Str := "APP_PORT".data

/-- Literal "PORT" used in concrete claim instances. -/
def sPORT : Str := "PORT".data

/-- Literal "8080" used in concrete claim instances. -/
def s8080 : Str := "8080".data

/-- Literal "port = \"8080\"\n" used in concrete claim instances. -/
def sPortLine : Str := "port = \"8080\"\n".data

/-- Literal "OTHER_X" used in concrete claim instances. -/
def sOTHERX : Str := "OTHER_X".data

/-- Literal "1" used in concrete claim instances. -/
def sOne : Str := "1".data

/-- Literal "2" used in concrete claim instances. -/
def sTwo : Str := "2".data

/-- Literal "x" used in concrete claim instances. -/
def sX : Str := "x".data

/-- Literal "a" used in concrete claim instances. -/
def sA : Str := "a".data

/-- Literal "b" used in concrete claim instances. -/
def sB : Str := "b".data

/-- Literal "k" used in concrete claim instances. -/
def sK : Str := "k".data

/-- Literal "host" used in concrete claim instances. -/
def sHost : Str := "host".data

/-- Literal "localhost" used in concrete claim instances. -/
def sLocalhost : Str := "localhost".data

/-- Literal "APP_DB__HOST" used in concrete claim instances. -/
def sAPPDBHOST : Str := "APP_DB__HOST".data

/-- Literal "DB__HOST" used in concrete claim instances. -/
def sDBHOST : Str := "DB__HOST".data

/-- Literal "APP_db__host" used in concrete claim instances. -/
def sAPPdbhost : Str := "APP_db__host".data

/-- Literal "\n[db]\nhost = \"a\"\nhost = \"b\"\n" used in concrete claim instances. -/
def sDupOut : Str := "\n[db]\nhost = \"a\"\nhost = \"b\"\n".data

/-- Literal "APP_A__K" used in concrete claim instances. -/
def sAPPAK : Str := "APP_A__K".data

/-- Literal "APP_B__K" used in concrete claim instances. -/
def sAPPBK : Str := "APP_B__K".data

/-- Literal "\n[a]\nk = \"1\"\n\n[b]\nk = \"2\"\n" used in concrete claim instances. -/
def sOutAB : Str := "\n[a]\nk = \"1\"\n\n[b]\nk = \"2\"\n".data

/-- Literal "\n[b]\nk = \"2\"\n\n[a]\nk = \"1\"\n" used in concrete claim instances. -/
def sOutBA : Str := "\n[b]\nk = \"2\"\n\n[a]\nk = \"1\"\n".data

/-- Literal "APP___HOST" used in concrete claim instances. -/
def sAPPuHOST : Str := "APP___HOST".data

/-- Literal "__HOST" used in concrete claim instances. -/
def sUHOST : Str := "__HOST".data

/-- Literal "APP_A__" used in concrete claim instances. -/
def sAPPAuu : Str := "APP_A__".data

/-- Literal "A__" used in concrete claim instances. -/
def sAuu : Str := "A__".data

/-- Literal "APP___A__B" used in concrete claim instances. -/
def sAPPuAB : Str := "APP___A__B".data

/-- Literal "__A__B" used in concrete claim instances. -/
def sUAB : Str := "__A__B".data

/-- Literal ".a" used in concrete claim instances. -/
def sDotA : Str := ".a".data

/-- Literal "a__b" used in concrete claim instances. -/
def sAub : Str := "a__b".data

/-- Total number of items stored in a `Config`. -/
def itemCount (c : Config) : Nat :=
  c.global.length + (c.sections.map (fun entry => entry.2.length)).sum

/-! ## Basic lemmas about the string helpers -/

theorem joinWith_cons_of_ne_nil (sep t : Str) (ts : List Str) (h : ts ≠ []) :
    joinWith sep (t :: ts) = t ++ sep ++ joinWith sep ts := by
  cases ts with
  | nil => exact absurd rfl h
  | cons u us => rfl

theorem joinWith_cons_head (sep : Str) (c : Char) (t : Str) (ts : List Str) :
    joinWith sep ((c :: t) :: ts) = c :: joinWith sep (t :: ts) := by
  cases ts with
  | nil => rfl
  | cons u us => simp [joinWith]

theorem joinWith_concat (sep x : Str) (l : List Str) (h : l ≠ []) :
    joinWith sep (l ++ [x]) = joinWith sep l ++ sep ++ x := by
  induction l with
  | nil => exact absurd rfl h
  | cons t ts ih =>
    cases ts with
    | nil => simp [joinWith]
    | cons u us =>
      rw [List.cons_append, joinWith_cons_of_ne_nil sep t ((u :: us) ++ [x]) (by simp),
        joinWith_cons_of_ne_nil sep t (u :: us) (by simp), ih (by simp)]
      simp

theorem getLastD_of_concat (l : List Str) (x d : Str) : (l ++ [x]).getLastD d = x := by
  induction l with
  | nil => rfl
  | cons t ts ih =>
    cases ts with
    | nil => rfl
    | cons u us => simpa using ih

theorem splitDunder_ne_nil (s : Str) : splitDunder s ≠ [] := by
  match s with
  | [] => simp [splitDunder]
  | [c] => simp [splitDunder]
  | c :: d :: rest =>
    rw [splitDunder]
    split
    · simp
    · split <;> simp

theorem joinWith_dunder_splitDunder (s : Str) :
    joinWith dunder (splitDunder s) = s := by
  induction s using splitDunder.induct with
  | case1 => rfl
  | case2 c => rfl
  | case3 c d rest h ih =>
    obtain ⟨h1, h2⟩ := h
    subst h1; subst h2
    rw [splitDunder, if_pos ⟨rfl, rfl⟩]
    obtain ⟨t, ts, hts⟩ : ∃ t ts, splitDunder rest = t :: ts := by
      cases hsd : splitDunder rest with
      | nil => exact absurd hsd (splitDunder_ne_nil rest)
      | cons t ts => exact ⟨t, ts, rfl⟩
    rw [hts] at ih ⊢
    rw [joinWith_cons_of_ne_nil dunder [] (t :: ts) (by simp), ih]
    rfl
  | case4 c d rest h hnil ih =>
    exact absurd hnil (splitDunder_ne_nil (d :: rest))
  | case5 c d rest h t ts hts ih =>
    rw [hts] at ih
    rw [splitDunder, if_neg h, hts]
    show joinWith dunder ((c :: t) :: ts) = c :: d :: rest
    rw [joinWith_cons_head, ih]

theorem stripPrefixOpt_eq_some_iff (p s r : Str) :
    stripPrefixOpt p s = some r ↔ s = p ++ r := by
  induction p generalizing s with
  | nil => simp [stripPrefixOpt]
  | cons a ps ih =>
    cases s with
    | nil => simp [stripPrefixOpt]
    | cons c cs =>
      by_cases h : a = c
      · subst h
        simp [stripPrefixOpt, ih]
      · simp only [stripPrefixOpt, if_neg h, List.cons_append, List.cons.injEq]
        constructor
        · intro hk; exact absurd hk (by simp)
        · intro ⟨hc, _⟩; exact absurd hc.symm h

theorem stripPrefixOpt_isSome_iff (p s : Str) :
    (stripPrefixOpt p s).isSome = true ↔ p <+: s := by
  rw [Option.isSome_iff_exists]
  constructor
  · intro ⟨r, hr⟩
    exact ⟨r, ((stripPrefixOpt_eq_some_iff p s r).mp hr).symm⟩
  · intro ⟨r, hr⟩
    exact ⟨r, (stripPrefixOpt_eq_some_iff p s r).mpr hr.symm⟩

theorem stripPrefixOpt_eq_none_iff (p s : Str) :
    stripPrefixOpt p s = none ↔ ¬ p <+: s := by
  rw [← stripPrefixOpt_isSome_iff p s]
  cases stripPrefixOpt p s <;> simp

/-- Characterization of the item built by `deriveItem` on a matching
name: the key is the last `"__"`-component of the normalized name, the
section is the join of the preceding components unless that join is
empty. -/
theorem deriveItem_eq_some (pre name value stripped : Str)
    (h : stripPrefixOpt pre name = some stripped) :
    deriveItem pre name value =
      some { sectionName :=
               if joinWith ['.'] (splitDunder (toLowercase stripped)).dropLast = [] then none
               else some (joinWith ['.'] (splitDunder (toLowercase stripped)).dropLast)
           , key := (splitDunder (toLowercase stripped)).getLastD []
           , value := value } := by
  obtain ⟨init, x, hx⟩ :
      ∃ init x, splitDunder (toLowercase stripped) = init ++ [x] := by
    rcases (splitDunder (toLowercase stripped)).eq_nil_or_concat with hnil | ⟨init, x, hx⟩
    · exact absurd hnil (splitDunder_ne_nil _)
    · exact ⟨init, x, by rw [hx, List.concat_eq_append]⟩
  rw [deriveItem, h]
  simp only [hx, List.length_append, List.length_singleton, Nat.add_sub_cancel,
    List.take_left' rfl, List.drop_left' rfl, List.dropLast_concat,
    getLastD_of_concat]
  rfl

/-! ## Placement of collected items -/

theorem insertSection_mem_self (secs : List (Str × List ConfigItem)) (s : Str)
    (item : ConfigItem) :
    ∃ items, (s, items) ∈ insertSection secs s item ∧ item ∈ items := by
  induction secs with
  | nil => exact ⟨[item], by simp [insertSection]⟩
  | cons e rest ih =>
    obtain ⟨k, kitems⟩ := e
    rw [insertSection]
    by_cases h : k = s
    · subst h
      rw [if_pos rfl]
      exact ⟨kitems ++ [item], List.mem_cons_self _ _, List.mem_append_right _ (by simp)⟩
    · rw [if_neg h]
      obtain ⟨its, h1, h2⟩ := ih
      exact ⟨its, List.mem_cons_of_mem _ h1, h2⟩

theorem insertSection_mem_mono {secs : List (Str × List ConfigItem)} {s2 : Str}
    {it : ConfigItem} {s : Str} {items : List ConfigItem} {i : ConfigItem}
    (hmem : (s, items) ∈ secs) (hi : i ∈ items) :
    ∃ items2, (s, items2) ∈ insertSection secs s2 it ∧ i ∈ items2 := by
  induction secs with
  | nil => cases hmem
  | cons e rest ih =>
    obtain ⟨k, kitems⟩ := e
    rw [insertSection]
    rcases List.mem_cons.mp hmem with heq | htail
    · injection heq with h1 h2
      subst h1; subst h2
      by_cases h : s = s2
      · subst h
        rw [if_pos rfl]
        exact ⟨items ++ [it], List.mem_cons_self _ _, List.mem_append_left _ hi⟩
      · rw [if_neg h]
        exact ⟨items, List.mem_cons_self _ _, hi⟩
    · by_cases h : k = s2
      · rw [if_pos h]
        exact ⟨items, List.mem_cons_of_mem _ htail, hi⟩
      · rw [if_neg h]
        obtain ⟨its2, ha, hb⟩ := ih htail
        exact ⟨its2, List.mem_cons_of_mem _ ha, hb⟩

theorem inBucket_fromEnvStep_mono (pre : Str) (c : Config) (nv : Str × Str)
    (i : ConfigItem) (h : InBucket c i) : InBucket (fromEnvStep pre c nv) i := by
  unfold InBucket at h ⊢
  unfold fromEnvStep
  cases hd : deriveItem pre nv.1 nv.2 with
  | none => exact h
  | some item =>
    cases hs : item.sectionName with
    | none =>
      simp only [hs]
      cases hi : i.sectionName with
      | none =>
        simp only [hi] at h ⊢
        exact List.mem_append_left _ h
      | some s =>
        simp only [hi] at h ⊢
        exact h
    | some s2 =>
      simp only [hs]
      cases hi : i.sectionName with
      | none =>
        simp only [hi] at h ⊢
        exact h
      | some s =>
        simp only [hi] at h ⊢
        obtain ⟨items, h1, h2⟩ := h
        exact insertSection_mem_mono h1 h2

theorem inBucket_fromEnvStep_self (pre : Str) (c : Config) (nv : Str × Str)
    (item : ConfigItem) (hd : deriveItem pre nv.1 nv.2 = some item) :
    InBucket (fromEnvStep pre c nv) item := by
  unfold InBucket fromEnvStep
  simp only [hd]
  cases hs : item.sectionName with
  | none =>
    simp only [hs]
    exact List.mem_append_right _ (by simp)
  | some s =>
    simp only [hs]
    exact insertSection_mem_self c.sections s item

theorem inBucket_foldl_mono (pre : Str) (env : List (Str × Str)) (c : Config)
    (i : ConfigItem) (h : InBucket c i) :
    InBucket (env.foldl (fromEnvStep pre) c) i := by
  induction env generalizing c with
  | nil => exact h
  | cons nv rest ih => exact ih _ (inBucket_fromEnvStep_mono pre c nv i h)

theorem inBucket_foldl_of_mem (pre : Str) (env : List (Str × Str)) (c : Config)
    (nv : Str × Str) (item : ConfigItem) (hmem : nv ∈ env)
    (hd : deriveItem pre nv.1 nv.2 = some item) :
    InBucket (env.foldl (fromEnvStep pre) c) item := by
  induction env generalizing c with
  | nil => cases hmem
  | cons x rest ih =>
    rw [List.foldl_cons]
    rcases List.mem_cons.mp hmem with heq | htail
    · subst heq
      exact inBucket_foldl_mono pre rest _ item (inBucket_fromEnvStep_self pre c nv item hd)
    · exact ih _ htail

theorem inBucket_fromEnv (pre : Str) (env : List (Str × Str)) (nv : Str × Str)
    (item : ConfigItem) (hmem : nv ∈ env)
    (hd : deriveItem pre nv.1 nv.2 = some item) :
    InBucket (fromEnv pre env) item :=
  inBucket_foldl_of_mem pre env { global := [], sections := [] } nv item hmem hd

theorem inBucket_itemIn (c : Config) (i : ConfigItem) (h : InBucket c i) : ItemIn c i := by
  unfold InBucket at h
  cases hi : i.sectionName with
  | none =>
    rw [hi] at h
    exact Or.inl h
  | some s =>
    rw [hi] at h
    obtain ⟨items, h1, h2⟩ := h
    exact Or.inr ⟨s, items, h1, h2⟩

/-! ## Structural invariants of the collected `Config` -/

theorem deriveItem_sectionName_ne_nil (pre n v : Str) (item : ConfigItem) (s : Str)
    (hd : deriveItem pre n v = some item) (hs : item.sectionName = some s) : s ≠ [] := by
  unfold deriveItem at hd
  cases hstrip : stripPrefixOpt pre n with
  | none => rw [hstrip] at hd; cases hd
  | some stripped =>
    rw [hstrip] at hd
    injection hd with hd
    subst hd
    simp only at hs
    split at hs
    · cases hs
    · injection hs with hs
      subst hs
      assumption

theorem insertSection_wf (secs : List (Str × List ConfigItem)) (s : Str) (item : ConfigItem)
    (hwf : ∀ k items, (k, items) ∈ secs → k ≠ [] ∧ ∀ i ∈ items, i.sectionName = some k)
    (hs : s ≠ []) (hitem : item.sectionName = some s) :
    ∀ k items, (k, items) ∈ insertSection secs s item →
      k ≠ [] ∧ ∀ i ∈ items, i.sectionName = some k := by
  induction secs with
  | nil =>
    intro k items hk
    rw [insertSection] at hk
    rcases List.mem_singleton.mp hk with heq
    injection heq with h1 h2
    subst h1; subst h2
    refine ⟨hs, ?_⟩
    intro i hi
    rw [List.mem_singleton.mp hi]
    exact hitem
  | cons e rest ih =>
    obtain ⟨k0, kitems⟩ := e
    intro k items hk
    rw [insertSection] at hk
    by_cases h : k0 = s
    · subst h
      rw [if_pos rfl] at hk
      rcases List.mem_cons.mp hk with heq | htail
      · injection heq with h1 h2
        subst h1; subst h2
        obtain ⟨hk0, hall⟩ := hwf k kitems (List.mem_cons_self _ _)
        refine ⟨hk0, ?_⟩
        intro i hi
        rcases List.mem_append.mp hi with hl | hr
        · exact hall i hl
        · rw [List.mem_singleton.mp hr]
          exact hitem
      · exact hwf k items (List.mem_cons_of_mem _ htail)
    · rw [if_neg h] at hk
      rcases List.mem_cons.mp hk with heq | htail
      · exact hwf k items (heq ▸ List.mem_cons_self _ _)
      · exact ih (fun k2 its2 hm => hwf k2 its2 (List.mem_cons_of_mem _ hm)) k items htail

theorem configWF_fromEnvStep (pre : Str) (c : Config) (nv : Str × Str)
    (h : ConfigWF c) : ConfigWF (fromEnvStep pre c nv) := by
  obtain ⟨hg, hsec⟩ := h
  unfold fromEnvStep
  cases hd : deriveItem pre nv.1 nv.2 with
  | none => exact ⟨hg, hsec⟩
  | some item =>
    cases hs : item.sectionName with
    | none =>
      simp only [hs]
      refine ⟨?_, hsec⟩
      intro i hi
      rcases List.mem_append.mp hi with hl | hr
      · exact hg i hl
      · rw [List.mem_singleton.mp hr]
        exact hs
    | some s =>
      simp only [hs]
      refine ⟨hg, ?_⟩
      exact insertSection_wf c.sections s item hsec
        (deriveItem_sectionName_ne_nil pre nv.1 nv.2 item s hd hs) hs

theorem configWF_foldl (pre : Str) (env : List (Str × Str)) (c : Config)
    (h : ConfigWF c) : ConfigWF (env.foldl (fromEnvStep pre) c) := by
  induction env generalizing c with
  | nil => exact h
  | cons nv rest ih => exact ih _ (configWF_fromEnvStep pre c nv h)

theorem configWF_fromEnv (pre : Str) (env : List (Str × Str)) :
    ConfigWF (fromEnv pre env) :=
  configWF_foldl pre env { global := [], sections := [] } (by constructor <;> simp)

/-! ## Counting collected items -/

theorem itemCount_insertSection (secs : List (Str × List ConfigItem)) (s : Str)
    (item : ConfigItem) :
    ((insertSection secs s item).map (fun entry => entry.2.length)).sum
      = (secs.map (fun entry => entry.2.length)).sum + 1 := by
  induction secs with
  | nil => simp [insertSection]
  | cons e rest ih =>
    obtain ⟨k, kitems⟩ := e
    rw [insertSection]
    by_cases h : k = s
    · rw [if_pos h]
      simp
      omega
    · rw [if_neg h]
      simp [ih]
      omega

theorem itemCount_fromEnvStep (pre : Str) (c : Config) (nv : Str × Str) :
    itemCount (fromEnvStep pre c nv)
      = itemCount c + (if (stripPrefixOpt pre nv.1).isSome then 1 else 0) := by
  unfold fromEnvStep itemCount
  cases hstrip : stripPrefixOpt pre nv.1 with
  | none =>
    simp only [deriveItem, hstrip]
    simp
  | some stripped =>
    rw [deriveItem_eq_some pre nv.1 nv.2 stripped hstrip]
    by_cases h : joinWith ['.'] (splitDunder (toLowercase stripped)).dropLast = []
    · simp only [h, if_pos rfl]
      simp
      omega
    · simp only [if_neg h]
      simp [itemCount_insertSection]
      omega

theorem itemCount_foldl (pre : Str) (env : List (Str × Str)) (c : Config) :
    itemCount (env.foldl (fromEnvStep pre) c)
      = itemCount c + env.countP (fun nv => (stripPrefixOpt pre nv.1).isSome) := by
  induction env generalizing c with
  | nil => simp
  | cons nv rest ih =>
    rw [List.foldl_cons, ih, itemCount_fromEnvStep, List.countP_cons]
    cases h : (stripPrefixOpt pre nv.1).isSome
    · simp [h]
    · simp [h]
      omega

/-! ## Shape of the serialized output -/

theorem foldl_render_append (l : List ConfigItem) (a : Str) :
    l.foldl (fun res item => res ++ (item.key ++ " = \"".data ++ item.value ++ "\"\n".data)) a
      = a ++ (l.map renderItem).flatten := by
  induction l generalizing a with
  | nil => simp
  | cons i rest ih =>
    rw [List.foldl_cons, ih]
    simp [renderItem]

theorem foldl_renderSection_append (secs : List (Str × List ConfigItem)) (a : Str) :
    secs.foldl
      (fun res entry =>
        entry.2.foldl
          (fun res item => res ++ (item.key ++ " = \"".data ++ item.value ++ "\"\n".data))
          (res ++ ("\n[".data ++ entry.1 ++ "]\n".data))) a
      = a ++ (secs.map renderSection).flatten := by
  induction secs generalizing a with
  | nil => simp
  | cons e rest ih =>
    rw [List.foldl_cons, foldl_render_append, ih]
    simp [renderSection]

/-- The serializer, described declaratively: the concatenation of the
rendered global lines followed by the rendered section blocks in stored
order. -/
theorem to_toml_renders (c : Config) :
    to_toml c = (c.global.map renderItem).flatten ++ (c.sections.map renderSection).flatten := by
  simp only [to_toml, tomlIter]
  rw [foldl_render_append, foldl_renderSection_append]
  simp

/-! ## Infix facts used for the verbatim-value claim -/

theorem flatten_contains_of_mem {α : Type} (f : α → Str) (l : List α) (x : α) (hx : x ∈ l) :
    f x <:+: (l.map f).flatten := by
  obtain ⟨s, t, rfl⟩ := List.append_of_mem hx
  exact ⟨(s.map f).flatten, (t.map f).flatten, by simp⟩

theorem contains_append_left (l l1 l2 : Str) (h : l <:+: l1) : l <:+: l1 ++ l2 := by
  obtain ⟨s, t, rfl⟩ := h
  exact ⟨s, t ++ l2, by simp⟩

theorem contains_append_right (l l1 l2 : Str) (h : l <:+: l2) : l <:+: l1 ++ l2 := by
  obtain ⟨s, t, rfl⟩ := h
  exact ⟨l1 ++ s, t, by simp⟩

theorem renderItem_in_to_toml (c : Config) (i : ConfigItem) (h : ItemIn c i) :
    renderItem i <:+: to_toml c := by
  rw [to_toml_renders]
  rcases h with hg | ⟨s, items, hsec, hi⟩
  · exact contains_append_left _ _ _ (flatten_contains_of_mem renderItem c.global i hg)
  · refine contains_append_right _ _ _ ?_
    have h1 : renderItem i <:+: renderSection (s, items) := by
      unfold renderSection
      exact contains_append_right _ _ _ (flatten_contains_of_mem renderItem items i hi)
    exact h1.trans (flatten_contains_of_mem renderSection c.sections (s, items) hsec)

/-! ## Non-matching variables and the empty configuration -/

theorem fromEnvStep_skip (pre : Str) (c : Config) (nv : Str × Str)
    (h : stripPrefixOpt pre nv.1 = none) : fromEnvStep pre c nv = c := by
  unfold fromEnvStep deriveItem
  rw [h]

theorem fromEnv_ignores_nonmatching (pre n v : Str) (env1 env2 : List (Str × Str))
    (h : ¬ pre <+: n) :
    fromEnv pre (env1 ++ (n, v) :: env2) = fromEnv pre (env1 ++ env2) := by
  unfold fromEnv
  rw [List.foldl_append, List.foldl_append, List.foldl_cons,
    fromEnvStep_skip pre _ (n, v) ((stripPrefixOpt_eq_none_iff pre n).mpr h)]

theorem fromEnv_empty_of_no_match (pre : Str) (env : List (Str × Str))
    (h : ∀ nv ∈ env, ¬ pre <+: nv.1) :
    fromEnv pre env = { global := [], sections := [] } := by
  unfold fromEnv
  induction env with
  | nil => rfl
  | cons nv rest ih =>
    rw [List.foldl_cons,
      fromEnvStep_skip pre _ nv
        ((stripPrefixOpt_eq_none_iff pre nv.1).mpr (h nv (List.mem_cons_self _ _)))]
    exact ih (fun x hx => h x (List.mem_cons_of_mem _ hx))

/-- When the last `"__"`-component of `s` is empty, `s` itself is empty
or ends with the delimiter. -/
theorem splitDunder_last_empty (s : Str)
    (h : (splitDunder s).getLastD [] = []) : s = [] ∨ dunder <:+ s := by
  obtain ⟨init, x, hx⟩ : ∃ init x, splitDunder s = init ++ [x] := by
    rcases (splitDunder s).eq_nil_or_concat with hnil | ⟨init, x, hc⟩
    · exact absurd hnil (splitDunder_ne_nil s)
    · exact ⟨init, x, by rw [hc, List.concat_eq_append]⟩
  have hxe : x = [] := by rw [hx, getLastD_of_concat] at h; exact h
  subst hxe
  have hre := joinWith_dunder_splitDunder s
  rw [hx] at hre
  cases init with
  | nil =>
    left
    rw [← hre]
    rfl
  | cons t ts =>
    right
    rw [joinWith_concat dunder [] (t :: ts) (by simp)] at hre
    exact ⟨joinWith dunder (t :: ts), by simpa using hre⟩

/-! ## Claim theorems -/

/-- C1 counterexample.  The claim prescribes: with one or more preceding
components the section is the preceding components joined with `"."` and
the item is appended to `sections[joined_path]`.  For prefix `"APP_"` and
variable `"APP___HOST"` the stripped, lowercased name `"__host"` splits
into the two components `""` and `"host"`, so the claim prescribes
section `""` and placement in `sections[""]`; the code instead stores
the item in `global` with no section, and `sections` stays empty. -/
theorem derivation_rule_literal_counterexample :
    specSectionOfParts (splitDunder (toLowercase sUHOST)) = some [] ∧
    fromEnv sAPP [(sAPPuHOST, sX)] =
      { global := [{ sectionName := none, key := sHost, value := sX }]
      , sections := [] } :=
  ⟨by decide, by decide⟩

/-- C1 (amended): for every matching variable, the collected item's key
is the last `"__"`-component of the stripped, lowercased name and its
value is the variable's value; the section is the preceding components
joined with `"."` unless that join is empty, in which case the section
is `none`; items with no section land in `global` and the others in
their section's bucket of `sections`. -/
theorem collect_follows_amended_derivation_rule
    (pre : Str) (env : List (Str × Str)) (n v stripped : Str)
    (hmem : (n, v) ∈ env) (hstrip : stripPrefixOpt pre n = some stripped) :
    ∃ item, deriveItem pre n v = some item ∧
      item.key = (splitDunder (toLowercase stripped)).getLastD [] ∧
      item.value = v ∧
      item.sectionName =
        (if joinWith ['.'] (splitDunder (toLowercase stripped)).dropLast = []
         then none else some (joinWith ['.'] (splitDunder (toLowercase stripped)).dropLast)) ∧
      (item.sectionName = none → item ∈ (fromEnv pre env).global) ∧
      (∀ s, item.sectionName = some s →
        ∃ items, (s, items) ∈ (fromEnv pre env).sections ∧ item ∈ items) := by
  obtain ⟨item, hd⟩ : ∃ item, deriveItem pre n v = some item :=
    ⟨_, deriveItem_eq_some pre n v stripped hstrip⟩
  have hrec := deriveItem_eq_some pre n v stripped hstrip
  rw [hd] at hrec
  injection hrec with hrec
  have hib := inBucket_fromEnv pre env (n, v) item hmem hd
  refine ⟨item, hd, ?_, ?_, ?_, ?_, ?_⟩
  · rw [hrec]
  · rw [hrec]
  · rw [hrec]
  · intro hnone
    unfold InBucket at hib
    simp only [hnone] at hib
    exact hib
  · intro s hs
    unfold InBucket at hib
    simp only [hs] at hib
    exact hib

/-- Witness for C1 (amended) at prefix `"APP_"`, variable
`"APP_DB__HOST" = "localhost"`. -/
theorem collect_follows_amended_derivation_rule_witness :
    (sAPPDBHOST, sLocalhost) ∈
        [(sAPPDBHOST, sLocalhost)] ∧
    stripPrefixOpt sAPP sAPPDBHOST = some sDBHOST ∧
    (∃ item, deriveItem sAPP sAPPDBHOST sLocalhost = some item ∧
      item.key = (splitDunder (toLowercase sDBHOST)).getLastD [] ∧
      item.value = sLocalhost ∧
      item.sectionName =
        (if joinWith ['.'] (splitDunder (toLowercase sDBHOST)).dropLast = []
         then none
         else some (joinWith ['.'] (splitDunder (toLowercase sDBHOST)).dropLast)) ∧
      (item.sectionName = none →
        item ∈ (fromEnv sAPP [(sAPPDBHOST, sLocalhost)]).global) ∧
      (∀ s, item.sectionName = some s →
        ∃ items,
          (s, items) ∈ (fromEnv sAPP [(sAPPDBHOST, sLocalhost)]).sections ∧
          item ∈ items)) :=
  ⟨by decide, by decide,
    collect_follows_amended_derivation_rule sAPP
      [(sAPPDBHOST, sLocalhost)] sAPPDBHOST sLocalhost
      sDBHOST (by decide) (by decide)⟩

/-- C2 counterexample.  For prefix `"APP_"` and variable `"APP_A__"`,
the normalized (stripped, lowercased) name `"a__"` is non-empty, yet
the collected item stored under section `"a"` has an empty key. -/
theorem key_nonempty_counterexample :
    toLowercase sAuu ≠ [] ∧
    fromEnv sAPP [(sAPPAuu, sX)] =
      { global := []
      , sections :=
          [(sA, [{ sectionName := some sA, key := [], value := sX }])] } :=
  ⟨by decide, by decide⟩

/-- C2 (amended): a collected item's key is non-empty after
normalization, except when the normalized name itself is empty or ends
with the delimiter `"__"` (leaving a trailing empty component). -/
theorem key_empty_only_for_empty_or_trailing_delimiter
    (pre n v stripped : Str) (item : ConfigItem)
    (hstrip : stripPrefixOpt pre n = some stripped)
    (hd : deriveItem pre n v = some item)
    (hkey : item.key = []) :
    toLowercase stripped = [] ∨ dunder <:+ toLowercase stripped := by
  rw [deriveItem_eq_some pre n v stripped hstrip] at hd
  injection hd with hd
  subst hd
  simp only at hkey
  exact splitDunder_last_empty (toLowercase stripped) hkey

/-- Witness for C2 (amended) at prefix `"APP_"`, variable `"APP_A__"`. -/
theorem key_empty_only_for_empty_or_trailing_delimiter_witness :
    stripPrefixOpt sAPP sAPPAuu = some sAuu ∧
    deriveItem sAPP sAPPAuu sX =
      some { sectionName := some sA, key := [], value := sX } ∧
    (toLowercase sAuu = [] ∨ dunder <:+ toLowercase sAuu) :=
  ⟨by decide, by decide,
    key_empty_only_for_empty_or_trailing_delimiter sAPP sAPPAuu sX
      sAuu { sectionName := some sA, key := [], value := sX }
      (by decide) (by decide) rfl⟩

/-- C3: a variable whose name does not start with the prefix (exact,
case-sensitive match) contributes nothing: deleting it from the
environment changes neither the collected `Config` nor the output
string. -/
theorem nonmatching_variable_contributes_nothing
    (pre n v : Str) (env1 env2 : List (Str × Str)) (h : ¬ pre <+: n) :
    fromEnv pre (env1 ++ (n, v) :: env2) = fromEnv pre (env1 ++ env2) ∧
    to_toml (fromEnv pre (env1 ++ (n, v) :: env2)) = to_toml (fromEnv pre (env1 ++ env2)) := by
  have heq := fromEnv_ignores_nonmatching pre n v env1 env2 h
  exact ⟨heq, by rw [heq]⟩

/-- Witness for C3: `"OTHER_X"` does not start with `"APP_"` and leaves
the output unchanged. -/
theorem nonmatching_variable_contributes_nothing_witness :
    ¬ sAPP <+: sOTHERX ∧
    (fromEnv sAPP ([(sAPPPORT, s8080)] ++ (sOTHERX, sOne) :: [])
        = fromEnv sAPP ([(sAPPPORT, s8080)] ++ []) ∧
      to_toml
          (fromEnv sAPP
            ([(sAPPPORT, s8080)] ++ (sOTHERX, sOne) :: []))
        = to_toml (fromEnv sAPP ([(sAPPPORT, s8080)] ++ []))) :=
  ⟨(stripPrefixOpt_eq_none_iff sAPP sOTHERX).mp (by decide),
    nonmatching_variable_contributes_nothing sAPP sOTHERX sOne
      [(sAPPPORT, s8080)] []
      ((stripPrefixOpt_eq_none_iff sAPP sOTHERX).mp (by decide))⟩

/-- C4: serialization emits every global item, one `key = "value"` line
per item in sequence order, then for every stored section a blank line,
the `[section-name]` header line, and that section's items in sequence
order. -/
theorem to_toml_emits_global_then_sections (c : Config) :
    to_toml c = (c.global.map renderItem).flatten ++ (c.sections.map renderSection).flatten :=
  to_toml_renders c

/-- C5: the emitted `key = "value"` line of a matching variable carries
the original environment value verbatim between the double quotes — no
escaping or transformation — and that line occurs in the output. -/
theorem value_emitted_verbatim (pre : Str) (env : List (Str × Str)) (n v stripped : Str)
    (hmem : (n, v) ∈ env) (hstrip : stripPrefixOpt pre n = some stripped) :
    ∃ item, deriveItem pre n v = some item ∧ item.value = v ∧
      (item.key ++ " = \"".data ++ v ++ "\"\n".data) <:+: to_toml (fromEnv pre env) := by
  have hd := deriveItem_eq_some pre n v stripped hstrip
  have hval : ∀ item, deriveItem pre n v = some item → item.value = v := by
    intro item hitem
    rw [hd] at hitem
    injection hitem with hitem
    subst hitem
    rfl
  refine ⟨_, hd, hval _ hd, ?_⟩
  have hib := inBucket_fromEnv pre env (n, v) _ hmem hd
  have hline := renderItem_in_to_toml (fromEnv pre env) _ (inBucket_itemIn _ _ hib)
  unfold renderItem at hline
  exact hline

/-- Witness for C5 at prefix `"APP_"`, variable `"APP_PORT" = "8080"`. -/
theorem value_emitted_verbatim_witness :
    (sAPPPORT, s8080) ∈ [(sAPPPORT, s8080)] ∧
    stripPrefixOpt sAPP sAPPPORT = some sPORT ∧
    (∃ item, deriveItem sAPP sAPPPORT s8080 = some item ∧
      item.value = s8080 ∧
      (item.key ++ " = \"".data ++ s8080 ++ "\"\n".data) <:+:
        to_toml (fromEnv sAPP [(sAPPPORT, s8080)])) :=
  ⟨by decide, by decide,
    value_emitted_verbatim sAPP [(sAPPPORT, s8080)]
      sAPPPORT s8080 sPORT (by decide) (by decide)⟩

/-- C6: when no variable name starts with the prefix, the collector
yields the empty `Config` without error, serializing the empty `Config`
yields the empty string, and the whole conversion returns `Ok ""`. -/
theorem no_match_yields_empty_output (pre : Str) (env : List (Str × Str))
    (h : ∀ nv ∈ env, ¬ pre <+: nv.1) :
    fromEnv pre env = { global := [], sections := [] } ∧
    to_toml { global := [], sections := [] } = [] ∧
    env_to_toml pre env = Except.ok [] := by
  have he := fromEnv_empty_of_no_match pre env h
  refine ⟨he, rfl, ?_⟩
  unfold env_to_toml
  rw [he]
  rfl

/-- Witness for C6: the singleton environment `OTHER_X=1` has no match
for prefix `"APP_"`. -/
theorem no_match_yields_empty_output_witness :
    (∀ nv ∈ [(sOTHERX, sOne)], ¬ sAPP <+: nv.1) ∧
    (fromEnv sAPP [(sOTHERX, sOne)] = { global := [], sections := [] } ∧
      to_toml { global := [], sections := [] } = [] ∧
      env_to_toml sAPP [(sOTHERX, sOne)] = Except.ok []) := by
  have h : ∀ nv ∈ [(sOTHERX, sOne)], ¬ sAPP <+: nv.1 := by
    intro nv hnv
    rw [List.mem_singleton.mp hnv]
    exact (stripPrefixOpt_eq_none_iff sAPP sOTHERX).mp (by decide)
  exact ⟨h, no_match_yields_empty_output sAPP [(sOTHERX, sOne)] h⟩

/-- C7: the conversion entry point always returns the `Ok` variant; no
input reaches the error channel. -/
theorem env_to_toml_always_ok (pre : Str) (env : List (Str × Str)) :
    ∃ s, env_to_toml pre env = Except.ok s :=
  ⟨to_toml (fromEnv pre env), rfl⟩

/-- C8: no deduplication ever happens — the number of stored items
always equals the number of matching variables — and in particular two
distinct names normalizing to the same (section, key) pair produce two
separate `key = "value"` lines under one section header, as the
concrete run for `APP_DB__HOST=a`, `APP_db__host=b` shows. -/
theorem duplicate_keys_both_emitted :
    (∀ (pre : Str) (env : List (Str × Str)),
      itemCount (fromEnv pre env)
        = env.countP (fun nv => (stripPrefixOpt pre nv.1).isSome)) ∧
    to_toml (fromEnv sAPP
        [(sAPPDBHOST, sA), (sAPPdbhost, sB)])
      = sDupOut := by
  constructor
  · intro pre env
    unfold fromEnv
    rw [itemCount_foldl]
    simp [itemCount]
  · decide

/-- C9 counterexample.  With two collected sections, two admissible
`HashMap` iteration orders produce different byte strings for the same
unchanged environment, so the full pipeline is not two-run
deterministic. -/
theorem two_run_determinism_counterexample :
    ConvertOutputs sAPP [(sAPPAK, sOne), (sAPPBK, sTwo)]
      sOutAB ∧
    ConvertOutputs sAPP [(sAPPAK, sOne), (sAPPBK, sTwo)]
      sOutBA ∧
    sOutAB ≠ sOutBA := by
  refine ⟨⟨(fromEnv sAPP
      [(sAPPAK, sOne), (sAPPBK, sTwo)]).sections,
      List.Perm.refl _, by decide⟩,
    ⟨[(sB, [{ sectionName := some sB, key := sK, value := sTwo }]),
      (sA, [{ sectionName := some sA, key := sK, value := sOne }])],
      by decide, by decide⟩,
    by decide⟩

/-- C9 (amended): the pipeline is deterministic once the section
iteration order cannot vary: whenever the collected `Config` has at most
one section, any two runs on the unchanged environment produce
byte-identical output. -/
theorem deterministic_with_at_most_one_section (pre : Str) (env : List (Str × Str))
    (out1 out2 : Str) (h1 : ConvertOutputs pre env out1) (h2 : ConvertOutputs pre env out2)
    (hlen : (fromEnv pre env).sections.length ≤ 1) : out1 = out2 := by
  obtain ⟨secs1, hp1, ho1⟩ := h1
  obtain ⟨secs2, hp2, ho2⟩ := h2
  have key : ∀ secs, secs.Perm (fromEnv pre env).sections →
      secs = (fromEnv pre env).sections := by
    intro secs hp
    cases hsec : (fromEnv pre env).sections with
    | nil =>
      rw [hsec] at hp
      exact hp.eq_nil
    | cons e rest =>
      cases rest with
      | nil =>
        rw [hsec] at hp
        exact List.perm_singleton.mp hp
      | cons f rs =>
        rw [hsec] at hlen
        simp at hlen
  rw [ho1, ho2, key secs1 hp1, key secs2 hp2]

/-- Witness for C9 (amended): a single matching global variable, whose
collected `Config` has zero sections. -/
theorem deterministic_with_at_most_one_section_witness :
    ConvertOutputs sAPP [(sAPPPORT, s8080)] sPortLine ∧
    (fromEnv sAPP [(sAPPPORT, s8080)]).sections.length ≤ 1 ∧
    (sPortLine : Str) = sPortLine :=
  ⟨⟨[], by decide, by decide⟩, by decide,
    deterministic_with_at_most_one_section sAPP [(sAPPPORT, s8080)]
      sPortLine sPortLine
      ⟨[], by decide, by decide⟩ ⟨[], by decide, by decide⟩ (by decide)⟩

/-- C10 counterexample.  The stripped, lowercased name `"__a__b"` of
variable `"APP___A__B"` begins with the delimiter `"__"`, yet the item
is not placed in `global`: its preceding components `""` and `"a"` join
to the non-empty path `".a"`, so it is stored under section `".a"`. -/
theorem leading_delimiter_counterexample :
    dunder <+: toLowercase sUAB ∧
    stripPrefixOpt sAPP sAPPuAB = some sUAB ∧
    fromEnv sAPP [(sAPPuAB, sX)] =
      { global := []
      , sections :=
          [(sDotA,
            [{ sectionName := some sDotA, key := sB, value := sX }])] } :=
  ⟨⟨sAub, by decide⟩, by decide, by decide⟩

/-- C10 (amended): an item whose preceding path components join to the
empty string (in particular a name with a single leading delimiter and
no further delimiter) is stored with `section = None` in `global`, and
no stored — hence no emitted — section name is ever empty, so the empty
header `[]` never appears. -/
theorem empty_joined_path_goes_global_and_no_empty_header :
    (∀ (pre n v stripped : Str) (item : ConfigItem) (env : List (Str × Str)),
      stripPrefixOpt pre n = some stripped →
      deriveItem pre n v = some item →
      joinWith ['.'] (splitDunder (toLowercase stripped)).dropLast = [] →
      item.sectionName = none ∧ ((n, v) ∈ env → item ∈ (fromEnv pre env).global)) ∧
    (∀ (pre : Str) (env : List (Str × Str)) (s : Str) (items : List ConfigItem),
      (s, items) ∈ (fromEnv pre env).sections → s ≠ []) := by
  constructor
  · intro pre n v stripped item env hstrip hd hj
    have hrec := deriveItem_eq_some pre n v stripped hstrip
    rw [hd] at hrec
    injection hrec with hrec
    have hsec : item.sectionName = none := by
      rw [hrec]
      simp [hj]
    refine ⟨hsec, fun hmem => ?_⟩
    have hib := inBucket_fromEnv pre env (n, v) item hmem hd
    unfold InBucket at hib
    simp only [hsec] at hib
    exact hib
  · intro pre env s items hmem
    exact ((configWF_fromEnv pre env).2 s items hmem).1

/-- Witness for C10 (amended) at variable `"APP___HOST"`, whose single
preceding component is empty. -/
theorem empty_joined_path_goes_global_and_no_empty_header_witness :
    stripPrefixOpt sAPP sAPPuHOST = some sUHOST ∧
    deriveItem sAPP sAPPuHOST sX =
      some { sectionName := none, key := sHost, value := sX } ∧
    joinWith ['.'] (splitDunder (toLowercase sUHOST)).dropLast = [] ∧
    (({ sectionName := none, key := sHost, value := sX } : ConfigItem).sectionName
        = none ∧
      ((sAPPuHOST, sX) ∈ [(sAPPuHOST, sX)] →
        ({ sectionName := none, key := sHost, value := sX } : ConfigItem) ∈
          (fromEnv sAPP [(sAPPuHOST, sX)]).global)) :=
  ⟨by decide, by decide, by decide,
    empty_joined_path_goes_global_and_no_empty_header.1 sAPP sAPPuHOST
      sX sUHOST { sectionName := none, key := sHost, value := sX }
      [(sAPPuHOST, sX)] (by decide) (by decide) (by decide)⟩

end EnvToToml
